import Mathlib

/-!
Shallow embedding of `cli/src/semdep/parsers/preprocessors.py`.

The source defines two small classes:

* `CommentRemover`: compiles a regex (default `(^|\s+)#.*($)`) in
  `re.MULTILINE` mode, rejects it with a `ValueError` unless it has exactly
  two capture groups, and `__call__` substitutes every match by `\1\2`
  (the concatenation of the two captured groups).
* `CombinedPreprocessor`: lowercases the whole input and then applies a
  default-pattern `CommentRemover`.

Text is modelled as `List Char`.  The regular-expression machinery of the
Python `re` module is embedded just deeply enough to cover the construct
set actually used by the source pattern: literal characters, the `\s`
class, the `.` class, alternation, `+` and `*` over a single class, the
multiline anchors `^` and `$`, and numbered capture groups.  The matcher
reproduces Python's backtracking order (leftmost match position wins,
alternation tries the left branch first, `*`/`+` are greedy), and
`pySub` reproduces `Pattern.sub`'s scan loop, including its treatment of
empty matches.
-/

namespace Semdep

/-- Python's `\s` class on `str` patterns: ASCII whitespace together with
the Unicode whitespace code points recognised by CPython's `re` module. -/
def isPySpace (c : Char) : Bool :=
  c = ' ' || c = '\t' || c = '\n' || c = '\x0b' || c = '\x0c' || c = '\r' ||
  c = '\x1c' || c = '\x1d' || c = '\x1e' || c = '\x1f' || c = '\x85' ||
  c = '\xa0' || c = '\u1680' || c = '\u2000' || c = '\u2001' || c = '\u2002' ||
  c = '\u2003' || c = '\u2004' || c = '\u2005' || c = '\u2006' || c = '\u2007' ||
  c = '\u2008' || c = '\u2009' || c = '\u200a' || c = '\u2028' || c = '\u2029' ||
  c = '\u202f' || c = '\u205f' || c = '\u3000'

/-- Character classes appearing in comment-remover patterns:
a literal character, the `\s` class, and `.` (anything but a newline,
since `re.DOTALL` is not passed by the source). -/
inductive CharCls where
  | lit (c : Char)
  | space
  | dot
deriving DecidableEq

/-- Whether a character belongs to a class. -/
def clsMatch : CharCls → Char → Bool
  | .lit c, d => d == c
  | .space, d => isPySpace d
  | .dot, d => d != '\n'

/-- Regular expressions over the construct set used by the source pattern
`(^|\s+)#.*($)`: empty, a class, concatenation, alternation, `*` and `+`
over a single class, the multiline anchors `^` and `$`, and a numbered
capture group. -/
inductive Reg where
  | eps
  | cls (c : CharCls)
  | concat (a b : Reg)
  | alt (a b : Reg)
  | starC (c : CharCls)
  | plusC (c : CharCls)
  | bol
  | eol
  | group (n : Nat) (r : Reg)
deriving DecidableEq

/-- `Pattern.groups` of the compiled pattern: the number of capture groups. -/
def Reg.groups : Reg → Nat
  | .eps => 0
  | .cls _ => 0
  | .concat a b => a.groups + b.groups
  | .alt a b => a.groups + b.groups
  | .starC _ => 0
  | .plusC _ => 0
  | .bol => 0
  | .eol => 0
  | .group _ r => r.groups + 1

/-- Textual rendering of a class, in the regex syntax of the source. -/
def CharCls.reprStr : CharCls → String
  | .lit c => String.singleton c
  | .space => "\\s"
  | .dot => "."

/-- Textual rendering of a pattern, in the regex syntax of the source;
used by the constructor-time error message (the source interpolates
`repr(self.pattern)`). -/
def Reg.reprStr : Reg → String
  | .eps => ""
  | .cls c => c.reprStr
  | .concat a b => a.reprStr ++ b.reprStr
  | .alt a b => a.reprStr ++ "|" ++ b.reprStr
  | .starC c => c.reprStr ++ "*"
  | .plusC c => c.reprStr ++ "+"
  | .bol => "^"
  | .eol => "$"
  | .group _ r => "(" ++ r.reprStr ++ ")"

/-- The default pattern of `CommentRemover.__init__`: `(^|\s+)#.*($)`. -/
def defaultRegex : Reg :=
  .concat (.group 1 (.alt .bol (.plusC .space)))
    (.concat (.cls (.lit '#')) (.concat (.starC .dot) (.group 2 .eol)))

/-- Captured groups of a match: `(group number, start, end)` triples,
positions being absolute indices into the subject text. -/
abbrev Caps := List (Nat × Nat × Nat)

/-- Length of the maximal run of characters satisfying `p` at the head of
a list (helper used for greedy `*` and `+` over a class). -/
def runLenL (p : Char → Bool) : List Char → Nat
  | [] => 0
  | c :: t => if p c then runLenL p t + 1 else 0

/-- Backtracking matcher, mirroring Python `re` semantics in `MULTILINE`
mode for the construct set of `Reg`.  `mtch s r i` returns the list of
possible `(end position, captures)` outcomes of matching `r` at position
`i` of `s`, in Python's backtracking priority order: the first element is
the outcome Python commits to.  Alternation tries the left branch first;
`*` and `+` over a class are greedy (longest first); `^` matches at
position 0 or right after a newline; `$` matches at the end of the text
or right before a newline. -/
def mtch (s : List Char) : Reg → Nat → List (Nat × Caps)
  | .eps, i => [(i, [])]
  | .cls c, i =>
      match s.get? i with
      | some ch => if clsMatch c ch then [(i + 1, [])] else []
      | none => []
  | .concat a b, i =>
      (mtch s a i).flatMap (fun x => (mtch s b x.1).map (fun y => (y.1, x.2 ++ y.2)))
  | .alt a b, i => mtch s a i ++ mtch s b i
  | .starC c, i =>
      (List.range (runLenL (clsMatch c) (s.drop i) + 1)).map
        (fun d => (i + (runLenL (clsMatch c) (s.drop i) - d), []))
  | .plusC c, i =>
      (List.range (runLenL (clsMatch c) (s.drop i))).map
        (fun d => (i + (runLenL (clsMatch c) (s.drop i) - d), []))
  | .bol, i => if i = 0 ∨ s.get? (i - 1) = some '\n' then [(i, [])] else []
  | .eol, i => if i = s.length ∨ s.get? i = some '\n' then [(i, [])] else []
  | .group n r, i => (mtch s r i).map (fun y => (y.1, (n, i, y.1) :: y.2))

/-- `Pattern.search` scanning loop: try successive start positions
`i, i+1, ...` (at most `fuel` of them) and commit to the first position
where the pattern matches, with the matcher's first outcome. -/
def searchAux (s : List Char) (r : Reg) : Nat → Nat → Option (Nat × Nat × Caps)
  | 0, _ => none
  | fuel + 1, i =>
      match (mtch s r i).head? with
      | some (e, caps) => some (i, e, caps)
      | none => searchAux s r fuel (i + 1)

/-- `Pattern.search` from position `i`: first matching position `≥ i`.
Positions `i, ..., s.length` are the candidate start positions. -/
def searchFrom (s : List Char) (r : Reg) (i : Nat) : Option (Nat × Nat × Caps) :=
  searchAux s r (s.length + 1 - i) i

/-- The text captured by group `n`, as recorded in `caps` (Python's
`m.group(n)`; an absent group yields the empty string, as `re.sub`
substitutes unmatched groups by `""`). -/
def capSlice (s : List Char) (caps : Caps) (n : Nat) : List Char :=
  match caps.find? (fun x => x.1 == n) with
  | some x => (s.drop x.2.1).take (x.2.2 - x.2.1)
  | none => []

/-- The source's fixed replacement template `\1\2`: the concatenation of
the texts captured by group 1 and group 2. -/
def replTemplate (s : List Char) (caps : Caps) : List Char :=
  capSlice s caps 1 ++ capSlice s caps 2

/-- `Pattern.sub` scanning loop.  From position `pos`: if no further match
exists, copy the rest of the text; otherwise copy the text up to the match
start, emit the replacement, and continue after the match (an empty match
additionally copies one character, as CPython's loop does). -/
def subAux (s : List Char) (r : Reg) : Nat → Nat → List Char
  | 0, pos => s.drop pos
  | fuel + 1, pos =>
      match searchFrom s r pos with
      | none => s.drop pos
      | some (a, e, caps) =>
          ((s.drop pos).take (a - pos)) ++ replTemplate s caps ++
          (if a < e then subAux s r fuel e
           else
             match s.get? e with
             | some c => c :: subAux s r fuel (e + 1)
             | none => [])

/-- `pattern.sub(r"\1\2", target)`: run the substitution scan over the
whole text.  `s.length + 1` units of fuel suffice because the scan
position strictly increases and never exceeds `s.length + 1`. -/
def pySub (r : Reg) (s : List Char) : List Char :=
  subAux s r (s.length + 1) 0

/-- `CommentRemover`: holds the compiled pattern. -/
structure CommentRemover where
  pattern : Reg
deriving DecidableEq

/-- The error message of `CommentRemover.__init__` (the source raises
`ValueError` with this text, interpolating the group count and the
pattern's representation). -/
def commentRemoverErrorMessage (r : Reg) : String :=
  "A comment remover regex pattern must have exactly two capture groups. " ++
  "Group 1 is text before comment to keep, group 2 is text after comment to keep. " ++
  "This helps us keep accurate line numbers for matches after preprocessing. " ++
  "Your pattern has " ++ toString r.groups ++
  " instead of 2 groups and looks like re.compile(" ++ r.reprStr ++ ")"

/-- `CommentRemover.__init__`: store the compiled pattern, but fail with
the `ValueError` message when it does not have exactly two capture
groups.  (Python raising is modelled by `Except.error`.) -/
def CommentRemover.init (regex : Reg) : Except String CommentRemover :=
  if (CommentRemover.mk regex).pattern.groups ≠ 2 then
    Except.error (commentRemoverErrorMessage regex)
  else
    Except.ok (CommentRemover.mk regex)

/-- `CommentRemover.__call__`: `self.pattern.sub(r"\1\2", target)`. -/
def CommentRemover.call (cr : CommentRemover) (target : List Char) : List Char :=
  pySub cr.pattern target

/-- The external `strip_comments` operation: a `CommentRemover` built with
the default pattern (which `CommentRemover.init` accepts, see
`init_default_ok`), applied to the text. -/
def strip_comments (target : List Char) : List Char :=
  (CommentRemover.mk defaultRegex).call target

/-- `str.lower`, modelled character-wise (`Char.toLower` agrees with
Python's `str.lower` on ASCII text, the alphabet this preprocessor is
used on). -/
def lowercase (target : List Char) : List Char :=
  target.map Char.toLower

/-- `CombinedPreprocessor`: holds one default-pattern `CommentRemover`. -/
structure CombinedPreprocessor where
  comment_remover : CommentRemover

/-- `CombinedPreprocessor.__init__`: `self.comment_remover = CommentRemover()`. -/
def CombinedPreprocessor.init : CombinedPreprocessor :=
  CombinedPreprocessor.mk (CommentRemover.mk defaultRegex)

/-- `CombinedPreprocessor.__call__`: lowercase the whole input, then strip
comments from the lowercased text. -/
def CombinedPreprocessor.call (p : CombinedPreprocessor) (target : List Char) : List Char :=
  p.comment_remover.call (target.map Char.toLower)

/-- The external `normalize` operation: `CombinedPreprocessor()(text)`. -/
def normalize (target : List Char) : List Char :=
  CombinedPreprocessor.init.call target

/-- Length of the whitespace run at position `i` (the amount a greedy
`\s+` consumes there). -/
def spaceRun (s : List Char) (i : Nat) : Nat :=
  runLenL isPySpace (s.drop i)

/-- Length of the run of non-newline characters at position `i` (the
amount a greedy `.` repetition consumes there). -/
def dotRun (s : List Char) (i : Nat) : Nat :=
  runLenL (fun c => c != '\n') (s.drop i)

/-- Position of the end of the line containing position `i`: the index of
the next newline at or after `i`, or the text length. -/
def eolFrom (s : List Char) (i : Nat) : Nat :=
  i + dotRun s i

/-- Closed form of the outcome the matcher commits to for the default
pattern `(^|\s+)#.*($)` at start position `i`: `some (m, e)` means the
match runs to `e`, with the comment marker `#` at position `m` (group 1
captures `[i, m)`, group 2 captures the empty `[e, e)`).  Proven equal to
the head outcome of `mtch` in `mtch_default`. -/
def matchAt (s : List Char) (i : Nat) : Option (Nat × Nat) :=
  if (i = 0 ∨ s.get? (i - 1) = some '\n') ∧ s.get? i = some '#' then
    some (i, eolFrom s (i + 1))
  else if 0 < spaceRun s i ∧ s.get? (i + spaceRun s i) = some '#' then
    some (i + spaceRun s i, eolFrom s (i + spaceRun s i + 1))
  else
    none

/-- The segment `[a, b)` of a text. -/
def slice (s : List Char) (a b : Nat) : List Char :=
  (s.drop a).take (b - a)

/-- Relation between adjacent characters: a `#` never directly follows a
whitespace character. -/
def hashOk (x y : Char) : Prop :=
  y = '#' → isPySpace x = false

/-- A text in which no `#` is at the start, directly after a whitespace
character, or directly after a newline (newlines are whitespace):
exactly the texts in which the default pattern has no match. -/
def noHashAfterSpace (l : List Char) : Prop :=
  (∀ c, l.head? = some c → c ≠ '#') ∧ List.Chain' hashOk l


theorem runLenL_le_length (p : Char → Bool) (l : List Char) : runLenL p l ≤ l.length := by
  induction l with
  | nil => simp [runLenL]
  | cons c t ih =>
      simp only [runLenL, List.length_cons]
      split
      · omega
      · omega

theorem runLenL_lt (p : Char → Bool) (l : List Char) (t : Nat) (h : t < runLenL p l) :
    ∃ c, l.get? t = some c ∧ p c = true := by
  induction l generalizing t with
  | nil => simp [runLenL] at h
  | cons c rest ih =>
      simp only [runLenL] at h
      by_cases hc : p c = true
      · rw [if_pos hc] at h
        cases t with
        | zero => exact ⟨c, rfl, hc⟩
        | succ u =>
            obtain ⟨d, hd, hpd⟩ := ih u (by omega)
            exact ⟨d, hd, hpd⟩
      · rw [if_neg hc] at h
        omega

theorem runLenL_end (p : Char → Bool) (l : List Char) (c : Char)
    (h : l.get? (runLenL p l) = some c) : p c = false := by
  induction l with
  | nil => simp at h
  | cons d rest ih =>
      simp only [runLenL] at h
      by_cases hd : p d = true
      · rw [if_pos hd] at h
        exact ih h
      · rw [if_neg hd] at h
        simp only [List.get?] at h
        cases h
        simpa using hd

theorem runLenL_eq_zero (p : Char → Bool) (l : List Char) (c : Char)
    (hh : l.head? = some c) (hc : p c = false) : runLenL p l = 0 := by
  cases l with
  | nil => rfl
  | cons d rest =>
      simp only [List.head?] at hh
      cases hh
      simp [runLenL, hc]

theorem runLenL_cons (p : Char → Bool) (c : Char) (t : List Char) :
    runLenL p (c :: t) = if p c then runLenL p t + 1 else 0 := rfl

theorem drop_head? (s : List Char) (i : Nat) : (s.drop i).head? = s.get? i := by
  rw [← List.get?_zero, List.get?_drop, Nat.add_zero]

theorem head?_append_left {l t : List Char} {x : Char}
    (h : l.head? = some x) : (l ++ t).head? = some x := by
  cases l with
  | nil => simp at h
  | cons c r => simpa using h

theorem head?_take_pos (l : List Char) (k : Nat) (h : 0 < k) :
    (l.take k).head? = l.head? := by
  cases l with
  | nil => simp
  | cons c r =>
      cases k with
      | zero => omega
      | succ m => simp

theorem get?_slice (s : List Char) (a b t : Nat) (h : t < b - a) :
    (slice s a b).get? t = s.get? (a + t) := by
  unfold slice
  rw [List.get?_take h, List.get?_drop]

theorem flatMap_nil_of_all {α β : Type} (l : List α) (f : α → List β)
    (h : ∀ x ∈ l, f x = []) : l.flatMap f = [] := by
  induction l with
  | nil => rfl
  | cons a t ih =>
      rw [List.flatMap_cons, h a (List.mem_cons_self a t), List.nil_append]
      exact ih (fun x hx => h x (List.mem_cons_of_mem a hx))

theorem isPySpace_hash : isPySpace '#' = false := by decide

theorem mtch_group_eol (s : List Char) (k : Nat) :
    mtch s (.group 2 .eol) k =
      if k = s.length ∨ s.get? k = some '\n' then [(k, [(2, k, k)])] else [] := by
  simp only [mtch]
  split
  · rfl
  · rfl

theorem dotRun_end (s : List Char) (j : Nat) (hj : j ≤ s.length) :
    j + dotRun s j = s.length ∨ s.get? (j + dotRun s j) = some '\n' := by
  cases hc : s.get? (j + dotRun s j) with
  | none =>
      left
      have h1 : s.length ≤ j + dotRun s j := List.get?_eq_none.mp hc
      have h2 : dotRun s j ≤ s.length - j := by
        have := runLenL_le_length (fun c => c != '\n') (s.drop j)
        simpa [dotRun, List.length_drop] using this
      omega
  | some c =>
      right
      have hg : (s.drop j).get? (dotRun s j) = some c := by
        rw [List.get?_drop]; exact hc
      have hpc := runLenL_end (fun c => c != '\n') (s.drop j) c hg
      have hc' : c = '\n' := by simpa using hpc
      rw [hc']

theorem dotRun_mid (s : List Char) (j u : Nat) (hu : u < dotRun s j) :
    ¬(j + u = s.length ∨ s.get? (j + u) = some '\n') := by
  obtain ⟨c, hgc, hpc⟩ := runLenL_lt (fun c => c != '\n') (s.drop j) u hu
  have hgc' : s.get? (j + u) = some c := by rw [← List.get?_drop]; exact hgc
  have hlt : j + u < s.length := (List.get?_eq_some.mp hgc').1
  rintro (h | h)
  · omega
  · rw [hgc'] at h
    have hcc : c = '\n' := by injection h
    rw [hcc] at hpc
    simp at hpc

theorem mtch_star_eol (s : List Char) (j : Nat) (hj : j ≤ s.length) :
    mtch s (.concat (.starC .dot) (.group 2 .eol)) j =
      [(eolFrom s j, [(2, eolFrom s j, eolFrom s j)])] := by
  have hn : runLenL (clsMatch .dot) (s.drop j) = dotRun s j := rfl
  conv_lhs => rw [mtch]
  conv_lhs => rw [mtch]
  rw [hn, List.range_succ_eq_map]
  simp only [List.map_cons, List.flatMap_cons, Nat.sub_zero, List.nil_append]
  have htail :
      (List.map (fun d => (j + (dotRun s j - d), ([] : Caps)))
          (List.map Nat.succ (List.range (dotRun s j)))).flatMap
        (fun x => List.map (fun y => (y.1, x.2 ++ y.2)) (mtch s (.group 2 .eol) x.1)) = [] := by
    apply flatMap_nil_of_all
    intro x hx
    simp only [List.mem_map, List.mem_range] at hx
    obtain ⟨d, ⟨t, ht, rfl⟩, rfl⟩ := hx
    rw [mtch_group_eol, if_neg (dotRun_mid s j _ (by omega))]
    rfl
  rw [htail, List.append_nil, mtch_group_eol, if_pos (dotRun_end s j hj)]
  rfl

theorem mtch_hash_rest (s : List Char) (j : Nat) :
    mtch s (.concat (.cls (.lit '#')) (.concat (.starC .dot) (.group 2 .eol))) j =
      if s.get? j = some '#' then
        [(eolFrom s (j + 1), [(2, eolFrom s (j + 1), eolFrom s (j + 1))])]
      else [] := by
  conv_lhs => rw [mtch]
  conv_lhs => rw [mtch]
  cases hc : s.get? j with
  | none => simp
  | some ch =>
      by_cases hch : ch = '#'
      · subst hch
        have hj1 : j + 1 ≤ s.length := (List.get?_eq_some.mp hc).1
        simp [mtch_star_eol s (j + 1) hj1, clsMatch]
      · simp [clsMatch, hch]

theorem spaceRun_mid (s : List Char) (i u : Nat) (hu : u < spaceRun s i) :
    ∃ c, s.get? (i + u) = some c ∧ isPySpace c = true := by
  obtain ⟨c, hgc, hpc⟩ := runLenL_lt isPySpace (s.drop i) u hu
  exact ⟨c, by rw [← List.get?_drop]; exact hgc, hpc⟩

theorem spaceRun_mid_not_hash (s : List Char) (i u : Nat) (hu : u < spaceRun s i) :
    ¬ s.get? (i + u) = some '#' := by
  obtain ⟨c, hgc, hpc⟩ := spaceRun_mid s i u hu
  rw [hgc]
  intro h
  have hcc : c = '#' := by injection h
  rw [hcc, isPySpace_hash] at hpc
  exact absurd hpc (by simp)

theorem mtch_default_plus (s : List Char) (i : Nat) :
    ((mtch s (.plusC .space) i).map
        (fun y => (y.1, ((1, i, y.1) : Nat × Nat × Nat) :: y.2))).flatMap
      (fun x =>
        (mtch s (.concat (.cls (.lit '#')) (.concat (.starC .dot) (.group 2 .eol))) x.1).map
          (fun y => (y.1, x.2 ++ y.2))) =
      if 0 < spaceRun s i ∧ s.get? (i + spaceRun s i) = some '#' then
        [(eolFrom s (i + spaceRun s i + 1),
          [(1, i, i + spaceRun s i),
           (2, eolFrom s (i + spaceRun s i + 1), eolFrom s (i + spaceRun s i + 1))])]
      else [] := by
  have hn : runLenL (clsMatch .space) (s.drop i) = spaceRun s i := rfl
  conv_lhs => rw [mtch]
  rw [hn]
  cases hsr : spaceRun s i with
  | zero => simp
  | succ m =>
      rw [List.range_succ_eq_map]
      simp only [List.map_cons, List.flatMap_cons, Nat.sub_zero]
      have htail :
          (List.map (fun y => (y.1, ((1, i, y.1) : Nat × Nat × Nat) :: y.2))
              (List.map (fun d => (i + (Nat.succ m - d), ([] : Caps)))
                (List.map Nat.succ (List.range m)))).flatMap
            (fun x =>
              (mtch s (.concat (.cls (.lit '#')) (.concat (.starC .dot) (.group 2 .eol)))
                  x.1).map (fun y => (y.1, x.2 ++ y.2))) = [] := by
        apply flatMap_nil_of_all
        intro x hx
        simp only [List.mem_map, List.mem_range] at hx
        obtain ⟨z, ⟨d, ⟨t, ht, rfl⟩, rfl⟩, rfl⟩ := hx
        rw [mtch_hash_rest, if_neg (spaceRun_mid_not_hash s i _ (by rw [hsr]; omega))]
        rfl
      rw [htail, List.append_nil, mtch_hash_rest]
      by_cases hh : s.get? (i + Nat.succ m) = some '#'
      · rw [if_pos hh, if_pos ⟨Nat.succ_pos m, hh⟩]
        rfl
      · rw [if_neg hh, if_neg (by rintro ⟨_, h⟩; exact hh h)]
        rfl

theorem mtch_default (s : List Char) (i : Nat) :
    mtch s defaultRegex i =
      match matchAt s i with
      | some me => [(me.2, [(1, i, me.1), (2, me.2, me.2)])]
      | none => [] := by
  have hbol : mtch s .bol i =
      if i = 0 ∨ s.get? (i - 1) = some '\n' then [(i, [])] else [] := rfl
  conv_lhs => rw [defaultRegex, mtch, mtch, mtch]
  unfold matchAt
  rw [hbol]
  by_cases hb : i = 0 ∨ s.get? (i - 1) = some '\n'
  · rw [if_pos hb, List.singleton_append, List.map_cons, List.flatMap_cons]
    by_cases hh : s.get? i = some '#'
    · rw [if_pos ⟨hb, hh⟩]
      have hsr : spaceRun s i = 0 := by
        apply runLenL_eq_zero isPySpace (s.drop i) '#'
        · rw [drop_head?]; exact hh
        · exact isPySpace_hash
      rw [mtch_default_plus, if_neg (by rintro ⟨h, _⟩; omega), List.append_nil]
      rw [mtch_hash_rest, if_pos hh]
      rfl
    · rw [if_neg (by rintro ⟨_, h⟩; exact hh h)]
      rw [mtch_hash_rest, if_neg hh, List.map_nil, List.nil_append]
      rw [mtch_default_plus]
      split
      · rfl
      · rfl
  · rw [if_neg hb, if_neg (by rintro ⟨h, _⟩; exact hb h), List.nil_append]
    rw [mtch_default_plus]
    split
    · rfl
    · rfl

theorem head_mtch_default (s : List Char) (i : Nat) :
    (mtch s defaultRegex i).head? =
      (matchAt s i).map (fun me => (me.2, [(1, i, me.1), (2, me.2, me.2)])) := by
  rw [mtch_default]
  cases matchAt s i with
  | none => rfl
  | some me => rfl

theorem eol_marker_facts (s : List Char) (m : Nat) (hm : s.get? m = some '#') :
    m < eolFrom s (m + 1) ∧ eolFrom s (m + 1) ≤ s.length ∧
    (∀ k, m < k → k < eolFrom s (m + 1) → ∃ c, s.get? k = some c ∧ ¬ c = '\n') ∧
    (eolFrom s (m + 1) = s.length ∨ s.get? (eolFrom s (m + 1)) = some '\n') := by
  have hml : m < s.length := (List.get?_eq_some.mp hm).1
  have hle : dotRun s (m + 1) ≤ s.length - (m + 1) := by
    have := runLenL_le_length (fun c => c != '\n') (s.drop (m + 1))
    simpa [dotRun, List.length_drop] using this
  refine ⟨by unfold eolFrom; omega, by unfold eolFrom; omega, ?_, ?_⟩
  · intro k hk1 hk2
    have hu : k - (m + 1) < dotRun s (m + 1) := by unfold eolFrom at hk2; omega
    obtain ⟨c, hgc, hpc⟩ := runLenL_lt (fun c => c != '\n') (s.drop (m + 1)) _ hu
    have heq : m + 1 + (k - (m + 1)) = k := by omega
    refine ⟨c, ?_, by simpa using hpc⟩
    rw [← heq, ← List.get?_drop]
    exact hgc
  · exact dotRun_end s (m + 1) hml

theorem matchAt_spec (s : List Char) (i m e : Nat) (h : matchAt s i = some (m, e)) :
    i ≤ m ∧ s.get? m = some '#' ∧ e = eolFrom s (m + 1) ∧ m < e ∧ e ≤ s.length ∧
    (∀ k, i ≤ k → k < m → ∃ c, s.get? k = some c ∧ isPySpace c = true) ∧
    (∀ k, m < k → k < e → ∃ c, s.get? k = some c ∧ ¬ c = '\n') ∧
    (e = s.length ∨ s.get? e = some '\n') ∧
    ((m = i ∧ (i = 0 ∨ s.get? (i - 1) = some '\n')) ∨
      (i < m ∧ 0 < spaceRun s i ∧ m = i + spaceRun s i)) := by
  unfold matchAt at h
  by_cases h1 : (i = 0 ∨ s.get? (i - 1) = some '\n') ∧ s.get? i = some '#'
  · rw [if_pos h1] at h
    simp only [Option.some.injEq, Prod.mk.injEq] at h
    obtain ⟨hm, he⟩ := h
    subst hm
    subst he
    obtain ⟨hlt, hle, hdots, hend⟩ := eol_marker_facts s i h1.2
    exact ⟨Nat.le_refl i, h1.2, rfl, hlt, hle,
      fun k hk1 hk2 => absurd (Nat.lt_of_le_of_lt hk1 hk2) (Nat.lt_irrefl i),
      hdots, hend, Or.inl ⟨rfl, h1.1⟩⟩
  · rw [if_neg h1] at h
    by_cases h2 : 0 < spaceRun s i ∧ s.get? (i + spaceRun s i) = some '#'
    · rw [if_pos h2] at h
      simp only [Option.some.injEq, Prod.mk.injEq] at h
      obtain ⟨hm, he⟩ := h
      obtain ⟨hlt, hle, hdots, hend⟩ := eol_marker_facts s (i + spaceRun s i) h2.2
      subst hm
      subst he
      refine ⟨by omega, h2.2, rfl, hlt, hle, ?_, hdots, hend, Or.inr ⟨by omega, h2.1, rfl⟩⟩
      intro k hk1 hk2
      have hu : k - i < spaceRun s i := by omega
      obtain ⟨c, hgc, hpc⟩ := spaceRun_mid s i _ hu
      have heq : i + (k - i) = k := by omega
      rw [heq] at hgc
      exact ⟨c, hgc, hpc⟩
    · rw [if_neg h2] at h
      cases h

theorem matchAt_none_of_ge (s : List Char) (i : Nat) (h : s.length ≤ i) :
    matchAt s i = none := by
  unfold matchAt
  have hg : s.get? i = none := List.get?_eq_none.mpr h
  have hsr : spaceRun s i = 0 := by
    unfold spaceRun
    rw [List.drop_eq_nil_of_le h]
    rfl
  rw [if_neg (by rintro ⟨_, h2⟩; rw [hg] at h2; cases h2)]
  rw [if_neg (by rintro ⟨h1, _⟩; omega)]

theorem searchAux_some (s : List Char) (r : Reg) (fuel : Nat) :
    ∀ i a e caps, searchAux s r fuel i = some (a, e, caps) →
      i ≤ a ∧ a < i + fuel ∧ (mtch s r a).head? = some (e, caps) ∧
      ∀ j, i ≤ j → j < a → (mtch s r j).head? = none := by
  induction fuel with
  | zero =>
      intro i a e caps h
      simp [searchAux] at h
  | succ fu ih =>
      intro i a e caps h
      rw [searchAux] at h
      cases hm : (mtch s r i).head? with
      | some x =>
          rw [hm] at h
          obtain ⟨x1, x2⟩ := x
          simp only [Option.some.injEq, Prod.mk.injEq] at h
          obtain ⟨rfl, rfl, rfl⟩ := h
          exact ⟨Nat.le_refl _, by omega, hm,
            fun j hj1 hj2 => absurd (Nat.lt_of_le_of_lt hj1 hj2) (Nat.lt_irrefl _)⟩
      | none =>
          rw [hm] at h
          obtain ⟨h1, h2, h3, h4⟩ := ih (i + 1) a e caps h
          refine ⟨by omega, by omega, h3, ?_⟩
          intro j hj1 hj2
          rcases Nat.eq_or_lt_of_le hj1 with hj | hj
          · rw [← hj]; exact hm
          · exact h4 j (by omega) hj2

theorem searchAux_none_forward (s : List Char) (r : Reg) (fuel : Nat) :
    ∀ i, searchAux s r fuel i = none →
      ∀ d, d < fuel → (mtch s r (i + d)).head? = none := by
  induction fuel with
  | zero => intro i _ d hd; omega
  | succ fu ih =>
      intro i h d hd
      rw [searchAux] at h
      cases hm : (mtch s r i).head? with
      | some x => rw [hm] at h; cases h
      | none =>
          rw [hm] at h
          cases d with
          | zero => simpa using hm
          | succ dd =>
              have heq : i + Nat.succ dd = (i + 1) + dd := by omega
              rw [heq]
              exact ih (i + 1) h dd (by omega)

theorem searchAux_none_of (s : List Char) (r : Reg) (fuel : Nat) :
    ∀ i, (∀ d, d < fuel → (mtch s r (i + d)).head? = none) →
      searchAux s r fuel i = none := by
  induction fuel with
  | zero => intro i _; rfl
  | succ fu ih =>
      intro i h
      rw [searchAux]
      have h0 : (mtch s r i).head? = none := by
        have := h 0 (by omega)
        simpa using this
      rw [h0]
      apply ih
      intro d hd
      have heq : (i + 1) + d = i + Nat.succ d := by omega
      rw [heq]
      exact h (Nat.succ d) (by omega)

theorem searchFrom_default_none_iff (s : List Char) (pos : Nat) :
    searchFrom s defaultRegex pos = none ↔ ∀ j, pos ≤ j → matchAt s j = none := by
  constructor
  · intro h j hj
    rcases Nat.lt_or_ge s.length j with hlen | hlen
    · exact matchAt_none_of_ge s j (by omega)
    · have hd : j - pos < s.length + 1 - pos := by omega
      have := searchAux_none_forward s defaultRegex (s.length + 1 - pos) pos h (j - pos) hd
      have heq : pos + (j - pos) = j := by omega
      rw [heq, head_mtch_default] at this
      exact Option.map_eq_none'.mp this
  · intro h
    apply searchAux_none_of
    intro d _
    rw [head_mtch_default, h (pos + d) (by omega)]
    rfl

theorem searchFrom_default_some (s : List Char) (pos a e : Nat) (caps : Caps)
    (h : searchFrom s defaultRegex pos = some (a, e, caps)) :
    pos ≤ a ∧ ∃ m, matchAt s a = some (m, e) ∧ caps = [(1, a, m), (2, e, e)] ∧
      ∀ j, pos ≤ j → j < a → matchAt s j = none := by
  obtain ⟨h1, _, h3, h4⟩ := searchAux_some s defaultRegex (s.length + 1 - pos) pos a e caps h
  rw [head_mtch_default] at h3
  cases hma : matchAt s a with
  | none => rw [hma] at h3; cases h3
  | some me =>
      rw [hma] at h3
      simp only [Option.map_some', Option.some.injEq, Prod.mk.injEq] at h3
      obtain ⟨he, hc⟩ := h3
      subst he
      refine ⟨h1, me.1, rfl, hc.symm, ?_⟩
      intro j hj1 hj2
      have := h4 j hj1 hj2
      rw [head_mtch_default] at this
      exact Option.map_eq_none'.mp this

theorem replTemplate_default (s : List Char) (a m e : Nat) :
    replTemplate s [(1, a, m), (2, e, e)] = slice s a m := by
  show capSlice s [(1, a, m), (2, e, e)] 1 ++ capSlice s [(1, a, m), (2, e, e)] 2 = slice s a m
  have h1 : capSlice s [(1, a, m), (2, e, e)] 1 = slice s a m := rfl
  have h2 : capSlice s [(1, a, m), (2, e, e)] 2 = (s.drop e).take (e - e) := rfl
  rw [h1, h2, Nat.sub_self, List.take_zero, List.append_nil]

theorem slice_append_drop (s : List Char) (a m : Nat) (h : a ≤ m) :
    slice s a m ++ s.drop m = s.drop a := by
  unfold slice
  have h2 : (s.drop a).drop (m - a) = s.drop m := by
    rw [List.drop_drop]
    congr 1
    omega
  rw [← h2, List.take_append_drop]

theorem slice_length_le (s : List Char) (a b : Nat) : (slice s a b).length ≤ b - a := by
  unfold slice
  rw [List.length_take]
  exact Nat.min_le_left _ _

theorem count_slice_zero (s : List Char) (m e : Nat) (hm : s.get? m = some '#')
    (hdots : ∀ k, m < k → k < e → ∃ c, s.get? k = some c ∧ ¬ c = '\n') :
    (slice s m e).count '\n' = 0 := by
  rw [List.count_eq_zero]
  intro hmem
  rw [List.mem_iff_get?] at hmem
  obtain ⟨t, ht⟩ := hmem
  have htl : t < (slice s m e).length := (List.get?_eq_some.mp ht).1
  have htb : t < e - m := by
    have := slice_length_le s m e
    omega
  rw [get?_slice s m e t htb] at ht
  cases t with
  | zero =>
      rw [Nat.add_zero, hm] at ht
      injection ht with hx
      exact absurd hx (by decide)
  | succ u =>
      obtain ⟨c, hgc, hcn⟩ := hdots (m + Nat.succ u) (by omega) (by omega)
      rw [hgc] at ht
      injection ht with hx
      exact hcn hx

theorem subAux_count (s : List Char) : ∀ fuel pos,
    (subAux s defaultRegex fuel pos).count '\n' = (s.drop pos).count '\n' := by
  intro fuel
  induction fuel with
  | zero => intro pos; rfl
  | succ fu ih =>
      intro pos
      rw [subAux]
      split
      · rfl
      · next a e caps hsf =>
          obtain ⟨hpa, m, hma, hcaps, _⟩ := searchFrom_default_some s pos a e caps hsf
          obtain ⟨ham, hm, _, hme, _, _, hdots, _, _⟩ := matchAt_spec s a m e hma
          rw [if_pos (by omega : a < e)]
          subst hcaps
          rw [replTemplate_default]
          have hsl : ((s.drop pos).take (a - pos)) = slice s pos a := rfl
          rw [hsl, List.count_append, List.count_append, ih e]
          conv_rhs => rw [← slice_append_drop s pos a hpa]
          conv_rhs => rw [← slice_append_drop s a m ham]
          conv_rhs => rw [← slice_append_drop s m e (by omega)]
          rw [List.count_append, List.count_append, List.count_append]
          rw [count_slice_zero s m e hm hdots]
          omega

theorem subAux_sublist (s : List Char) : ∀ fuel pos,
    (subAux s defaultRegex fuel pos).Sublist (s.drop pos) := by
  intro fuel
  induction fuel with
  | zero => intro pos; exact List.Sublist.refl _
  | succ fu ih =>
      intro pos
      rw [subAux]
      split
      · exact List.Sublist.refl _
      · next a e caps hsf =>
          obtain ⟨hpa, m, hma, hcaps, _⟩ := searchFrom_default_some s pos a e caps hsf
          obtain ⟨ham, hm, _, hme, _, _, _, _, _⟩ := matchAt_spec s a m e hma
          rw [if_pos (by omega : a < e)]
          subst hcaps
          rw [replTemplate_default]
          have hsl : ((s.drop pos).take (a - pos)) = slice s pos a := rfl
          rw [hsl, List.append_assoc]
          conv_rhs => rw [← slice_append_drop s pos a hpa]
          apply List.Sublist.append (List.Sublist.refl _)
          conv_rhs => rw [← slice_append_drop s a m ham]
          apply List.Sublist.append (List.Sublist.refl _)
          conv_rhs => rw [← slice_append_drop s m e (by omega)]
          exact List.Sublist.trans (ih e) (List.sublist_append_right _ _)

theorem runLenL_eq_one (p : Char → Bool) (l : List Char) (x y : Char)
    (h0 : l.get? 0 = some x) (hx : p x = true) (h1 : l.get? 1 = some y)
    (hy : p y = false) : runLenL p l = 1 := by
  cases l with
  | nil => simp at h0
  | cons c t =>
      simp only [List.get?] at h0
      cases h0
      rw [runLenL_cons, if_pos hx]
      have ht : runLenL p t = 0 := by
        apply runLenL_eq_zero p t y
        · rw [← List.get?_zero]
          exact h1
        · exact hy
      rw [ht]

theorem matchAt_adjacent (s : List Char) (j : Nat) (x : Char)
    (hx : s.get? j = some x) (hsp : isPySpace x = true)
    (hy : s.get? (j + 1) = some '#') : ¬ matchAt s j = none := by
  have hxh : ¬ x = '#' := by
    intro h
    rw [h, isPySpace_hash] at hsp
    cases hsp
  have hsr : spaceRun s j = 1 := by
    apply runLenL_eq_one isPySpace (s.drop j) x '#'
    · rw [List.get?_drop, Nat.add_zero]; exact hx
    · exact hsp
    · rw [List.get?_drop]; exact hy
    · exact isPySpace_hash
  unfold matchAt
  rw [if_neg (by rintro ⟨_, h2⟩; rw [hx] at h2; exact hxh (by injection h2))]
  rw [if_pos ⟨by omega, by rw [hsr]; exact hy⟩]
  simp

theorem chain'_rel (R : Char → Char → Prop) (l : List Char) (h : List.Chain' R l)
    (p : Nat) (x y : Char) (hx : l.get? p = some x) (hy : l.get? (p + 1) = some y) :
    R x y := by
  rw [List.get?_eq_some] at hx hy
  obtain ⟨hpx, hgx⟩ := hx
  obtain ⟨hpy, hgy⟩ := hy
  have hr := List.chain'_iff_get.mp h p (by omega)
  rw [← hgx, ← hgy]
  exact hr

theorem chain'_of_get? (R : Char → Char → Prop) (l : List Char)
    (h : ∀ p x y, l.get? p = some x → l.get? (p + 1) = some y → R x y) :
    List.Chain' R l := by
  rw [List.chain'_iff_get]
  intro i hi
  apply h i
  · rw [List.get?_eq_some]
    exact ⟨by omega, rfl⟩
  · rw [List.get?_eq_some]
    exact ⟨by omega, rfl⟩

theorem subAux_ge_len (s : List Char) : ∀ fuel pos, s.length ≤ pos →
    subAux s defaultRegex fuel pos = [] := by
  intro fuel pos h
  cases fuel with
  | zero =>
      show s.drop pos = []
      exact List.drop_eq_nil_of_le h
  | succ fu =>
      have hn : searchFrom s defaultRegex pos = none :=
        (searchFrom_default_none_iff s pos).mpr (fun j hj => matchAt_none_of_ge s j (by omega))
      rw [subAux, hn]
      exact List.drop_eq_nil_of_le h

theorem subAux_head_newline (s : List Char) : ∀ fuel pos, s.get? pos = some '\n' →
    (subAux s defaultRegex fuel pos).head? = some '\n' := by
  intro fuel pos hnl
  cases fuel with
  | zero =>
      show (s.drop pos).head? = _
      rw [drop_head?, hnl]
  | succ fu =>
      rw [subAux]
      split
      · rw [drop_head?, hnl]
      · next a e caps hsf =>
          obtain ⟨hpa, m, hma, hcaps, _⟩ := searchFrom_default_some s pos a e caps hsf
          obtain ⟨ham, hm, _, hme, _, _, _, _, hbr⟩ := matchAt_spec s a m e hma
          rw [if_pos (by omega : a < e)]
          subst hcaps
          rw [replTemplate_default]
          rcases Nat.eq_or_lt_of_le hpa with heq | hlt
          · subst heq
            have hpm : pos < m := by
              rcases Nat.eq_or_lt_of_le ham with h2 | h2
              · exfalso
                rw [← h2, hnl] at hm
                injection hm with hx
                exact absurd hx (by decide)
              · exact h2
            have h0 : ((s.drop pos).take (pos - pos)) = [] := by
              rw [Nat.sub_self, List.take_zero]
            rw [h0, List.nil_append]
            apply head?_append_left
            unfold slice
            rw [head?_take_pos _ _ (by omega), drop_head?, hnl]
          · apply head?_append_left
            apply head?_append_left
            rw [head?_take_pos _ _ (by omega), drop_head?, hnl]

theorem slice_glue (s : List Char) (pos a m : Nat) (h1 : pos ≤ a) (h2 : a ≤ m) :
    slice s pos a ++ slice s a m = slice s pos m := by
  unfold slice
  have he : m - pos = (a - pos) + (m - a) := by omega
  rw [he, List.take_add]
  congr 1
  rw [List.drop_drop]
  congr 2
  omega

theorem subAux_noHash (s : List Char) : ∀ fuel pos,
    s.length + 1 ≤ fuel + pos →
    (pos = 0 ∨ s.get? pos = some '\n' ∨ s.length ≤ pos) →
    noHashAfterSpace (subAux s defaultRegex fuel pos) := by
  intro fuel
  induction fuel with
  | zero =>
      intro pos hf _
      show noHashAfterSpace (s.drop pos)
      rw [List.drop_eq_nil_of_le (by omega)]
      exact ⟨(fun c hc => by simp at hc), List.chain'_nil⟩
  | succ fu ih =>
      intro pos hf hinv
      rw [subAux]
      split
      · next hsf =>
          have hnone := (searchFrom_default_none_iff s pos).mp hsf
          constructor
          · intro c hc hceq
            subst hceq
            rw [drop_head?] at hc
            rcases hinv with h0 | hnl | hge
            · subst h0
              have hms : ¬ matchAt s 0 = none := by
                unfold matchAt
                rw [if_pos ⟨Or.inl rfl, hc⟩]
                simp
              exact hms (hnone 0 (Nat.le_refl 0))
            · rw [hnl] at hc
              injection hc with hx
              exact absurd hx (by decide)
            · rw [List.get?_eq_none.mpr hge] at hc
              cases hc
          · apply chain'_of_get?
            intro p x y hx hy hyeq
            subst hyeq
            by_contra hxsp
            rw [Bool.not_eq_false] at hxsp
            rw [List.get?_drop] at hx hy
            have hadj := matchAt_adjacent s (pos + p) x hx hxsp (by
              have heq : pos + p + 1 = pos + (p + 1) := by omega
              rw [heq]; exact hy)
            exact hadj (hnone (pos + p) (by omega))
      · next a e caps hsf =>
          obtain ⟨hpa, m, hma, hcaps, hmin⟩ := searchFrom_default_some s pos a e caps hsf
          obtain ⟨ham, hm, _, hme, hel, hspaces, _, hend, _⟩ := matchAt_spec s a m e hma
          have hml : m < s.length := (List.get?_eq_some.mp hm).1
          rw [if_pos (by omega : a < e)]
          subst hcaps
          rw [replTemplate_default]
          have hsl : ((s.drop pos).take (a - pos)) = slice s pos a := rfl
          rw [hsl, slice_glue s pos a m hpa ham]
          have hT : noHashAfterSpace (subAux s defaultRegex fu e) := by
            apply ih e (by omega)
            right
            rcases hend with h | h
            · right; omega
            · left; exact h
          have hThead : (subAux s defaultRegex fu e).head? = none ∨
              (subAux s defaultRegex fu e).head? = some '\n' := by
            rcases hend with h | h
            · left
              rw [subAux_ge_len s fu e (by omega)]
              rfl
            · right
              exact subAux_head_newline s fu e h
          constructor
          · intro c hc hceq
            subst hceq
            rcases Nat.eq_or_lt_of_le (by omega : pos ≤ m) with hpm | hpm
            · have h0 : slice s pos m = [] := by
                unfold slice
                rw [← hpm, Nat.sub_self, List.take_zero]
              rw [h0, List.nil_append] at hc
              rcases hThead with h | h
              · rw [h] at hc; cases hc
              · rw [h] at hc
                injection hc with hx
                exact absurd hx (by decide)
            · have hpos_lt : pos < s.length := by omega
              cases hgp : s.get? pos with
              | none => exact absurd (List.get?_eq_none.mp hgp) (by omega)
              | some c0 =>
                  have hslh : (slice s pos m).head? = some c0 := by
                    unfold slice
                    rw [head?_take_pos _ _ (by omega), drop_head?, hgp]
                  rw [head?_append_left hslh] at hc
                  injection hc with hc0
                  subst hc0
                  rcases hinv with h0 | hnl | hge
                  · subst h0
                    have hm0 : matchAt s 0 = some (0, eolFrom s 1) := by
                      unfold matchAt
                      rw [if_pos ⟨Or.inl rfl, hgp⟩]
                    have ha0 : a = 0 := by
                      by_contra ha
                      have := hmin 0 (Nat.le_refl 0) (by omega)
                      rw [hm0] at this
                      cases this
                    rw [ha0, hm0] at hma
                    simp only [Option.some.injEq, Prod.mk.injEq] at hma
                    omega
                  · rw [hnl] at hgp
                    injection hgp with hx
                    exact absurd hx (by decide)
                  · omega
          · rw [List.chain'_append]
            refine ⟨?_, hT.2, ?_⟩
            · apply chain'_of_get?
              intro p x y hx hy hyeq
              subst hyeq
              by_contra hxsp
              rw [Bool.not_eq_false] at hxsp
              have hpl : p + 1 < m - pos := by
                have h1 := (List.get?_eq_some.mp hy).1
                have h2 := slice_length_le s pos m
                omega
              rw [get?_slice s pos m p (by omega)] at hx
              rw [get?_slice s pos m (p + 1) (by omega)] at hy
              rcases Nat.lt_or_ge (pos + (p + 1)) a with hlt2 | hge2
              · have hadj := matchAt_adjacent s (pos + p) x hx hxsp (by
                  have heq : pos + p + 1 = pos + (p + 1) := by omega
                  rw [heq]; exact hy)
                exact hadj (hmin (pos + p) (by omega) (by omega))
              · obtain ⟨c2, hc2, hc2s⟩ := hspaces (pos + (p + 1)) hge2 (by omega)
                rw [hy] at hc2
                injection hc2 with hx2
                rw [← hx2, isPySpace_hash] at hc2s
                cases hc2s
            · intro x _ y hyT
              rcases hThead with h | h
              · rw [h] at hyT
                cases hyT
              · rw [h] at hyT
                have hy : y = '\n' := by
                  rw [Option.mem_def] at hyT
                  injection hyT with hx
                  exact hx.symm
                subst hy
                intro hcontra
                exact absurd hcontra (by decide)

theorem matchAt_of_noHash (l : List Char) (h : noHashAfterSpace l) (j : Nat) :
    matchAt l j = none := by
  obtain ⟨hhead, hchain⟩ := h
  have h1 : ¬((j = 0 ∨ l.get? (j - 1) = some '\n') ∧ l.get? j = some '#') := by
    rintro ⟨hpos, hhash⟩
    rcases hpos with h0 | hprev
    · subst h0
      rw [List.get?_zero] at hhash
      exact hhead '#' hhash rfl
    · rcases Nat.eq_zero_or_pos j with h0 | hj
      · subst h0
        rw [hprev] at hhash
        injection hhash with hx
        exact absurd hx (by decide)
      · have hr := chain'_rel hashOk l hchain (j - 1) '\n' '#' hprev (by
          have heq : j - 1 + 1 = j := by omega
          rw [heq]; exact hhash)
        exact absurd (hr rfl) (by decide)
  have h2 : ¬(0 < spaceRun l j ∧ l.get? (j + spaceRun l j) = some '#') := by
    rintro ⟨hpos, hhash⟩
    obtain ⟨c, hgc, hcs⟩ := spaceRun_mid l j (spaceRun l j - 1) (by omega)
    have hr := chain'_rel hashOk l hchain (j + (spaceRun l j - 1)) c '#' hgc (by
      have heq : j + (spaceRun l j - 1) + 1 = j + spaceRun l j := by omega
      rw [heq]; exact hhash)
    rw [hr rfl] at hcs
    cases hcs
  unfold matchAt
  rw [if_neg h1, if_neg h2]

theorem strip_comments_eq_self (l : List Char) (h : ∀ j, matchAt l j = none) :
    strip_comments l = l := by
  show subAux l defaultRegex (l.length + 1) 0 = l
  have hn : searchFrom l defaultRegex 0 = none :=
    (searchFrom_default_none_iff l 0).mpr (fun j _ => h j)
  rw [subAux, hn]
  exact List.drop_zero l

theorem strip_comments_noHash (s : List Char) : noHashAfterSpace (strip_comments s) := by
  show noHashAfterSpace (subAux s defaultRegex (s.length + 1) 0)
  exact subAux_noHash s (s.length + 1) 0 (by omega) (Or.inl rfl)

theorem subAux_step (s : List Char) (fuel pos a e : Nat) (caps : Caps)
    (h : searchFrom s defaultRegex pos = some (a, e, caps)) (hae : a < e) :
    subAux s defaultRegex (fuel + 1) pos =
      ((s.drop pos).take (a - pos)) ++ replTemplate s caps ++ subAux s defaultRegex fuel e := by
  rw [subAux]
  split
  · next hn => rw [hn] at h; cases h
  · next a2 e2 caps2 hsf =>
      rw [hsf] at h
      simp only [Option.some.injEq, Prod.mk.injEq] at h
      obtain ⟨rfl, rfl, rfl⟩ := h
      rw [if_pos hae]

theorem init_default_ok :
    CommentRemover.init defaultRegex = Except.ok (CommentRemover.mk defaultRegex) := rfl

/-- C1: Line-count preservation — for every input text, the number of
line terminators in the output of `strip_comments` (the default-pattern
`CommentRemover.__call__`) equals the number of line terminators in the
input. -/
theorem strip_comments_preserves_line_count (s : List Char) :
    (strip_comments s).count '\n' = s.count '\n' := by
  have h := subAux_count s (s.length + 1) 0
  rw [List.drop_zero] at h
  exact h

/-- C2 counterexample: the spec scenario `strip_comments("foo # bar\nbaz\n")
= "foo\nbaz\n"` is false on the code — the whitespace captured by group 1
is reinserted by the `\1\2` replacement, so the space before the `#`
survives. -/
theorem strip_comments_scenario_counterexample :
    ¬ strip_comments "foo # bar\nbaz\n".data = "foo\nbaz\n".data := by
  decide

/-- C2 (amended): the concrete scenarios with the whitespace before the
marker retained, as the code actually behaves:
`strip_comments("foo # bar\nbaz\n") = "foo \nbaz\n"`,
`strip_comments("  # only a comment\nkeep me\n") = "  \nkeep me\n"`, and
`normalize("FOO # Bar\n") = "foo \n"` — the whitespace immediately
preceding the comment marker is captured and kept, not removed. -/
theorem strip_comments_concrete_scenarios :
    strip_comments "foo # bar\nbaz\n".data = "foo \nbaz\n".data ∧
    strip_comments "  # only a comment\nkeep me\n".data = "  \nkeep me\n".data ∧
    normalize "FOO # Bar\n".data = "foo \n".data := by
  refine ⟨by decide, by decide, by decide⟩

/-- C3: `strip_comments` replaces each match of the pattern with the
concatenation of its two captured zones; for the default pattern, zone
(a) — group 1 — is the whitespace-or-empty prefix `[a, m)` immediately
before the marker `#` at `m`, and zone (b) — group 2 — is the empty
end-of-line anchor `[e, e)`.  The captured whitespace prefix is retained
in the output while the marker and the comment body up to the line
terminator are deleted. -/
theorem strip_comments_replaces_match_with_captures (s : List Char) (fuel pos a e : Nat)
    (caps : Caps) (h : searchFrom s defaultRegex pos = some (a, e, caps)) :
    subAux s defaultRegex (fuel + 1) pos =
      slice s pos a ++ (capSlice s caps 1 ++ capSlice s caps 2) ++
        subAux s defaultRegex fuel e ∧
    ∃ m, a ≤ m ∧ m < e ∧ caps = [(1, a, m), (2, e, e)] ∧
      capSlice s caps 1 = slice s a m ∧ capSlice s caps 2 = [] ∧
      (∀ k, a ≤ k → k < m → ∃ c, s.get? k = some c ∧ isPySpace c = true) ∧
      s.get? m = some '#' ∧
      (∀ k, m < k → k < e → ∃ c, s.get? k = some c ∧ ¬ c = '\n') := by
  obtain ⟨hpa, m, hma, hcaps, _⟩ := searchFrom_default_some s pos a e caps h
  obtain ⟨ham, hm, _, hme, _, hspaces, hdots, _, _⟩ := matchAt_spec s a m e hma
  constructor
  · rw [subAux_step s fuel pos a e caps h (by omega)]
    rfl
  · subst hcaps
    refine ⟨m, ham, hme, rfl, rfl, ?_, hspaces, hm, hdots⟩
    show (s.drop e).take (e - e) = []
    rw [Nat.sub_self, List.take_zero]

/-- Witness for C3: the match of the default pattern found in
`"a # b\n"` from position 0 starts at 1, has its marker `#` at 2, ends at
5, captures the single space `[1, 2)` in group 1 and the empty `[5, 5)`
in group 2, and the substitution step replaces it by those captures. -/
theorem strip_comments_replaces_match_with_captures_witness :
    subAux "a # b\n".data defaultRegex (6 + 1) 0 =
      slice "a # b\n".data 0 1 ++
        (capSlice "a # b\n".data [(1, 1, 2), (2, 5, 5)] 1 ++
          capSlice "a # b\n".data [(1, 1, 2), (2, 5, 5)] 2) ++
        subAux "a # b\n".data defaultRegex 6 5 ∧
    ∃ m, 1 ≤ m ∧ m < 5 ∧
      ([(1, 1, 2), (2, 5, 5)] : Caps) = [(1, 1, m), (2, 5, 5)] ∧
      capSlice "a # b\n".data [(1, 1, 2), (2, 5, 5)] 1 = slice "a # b\n".data 1 m ∧
      capSlice "a # b\n".data [(1, 1, 2), (2, 5, 5)] 2 = [] ∧
      (∀ k, 1 ≤ k → k < m →
        ∃ c, "a # b\n".data.get? k = some c ∧ isPySpace c = true) ∧
      "a # b\n".data.get? m = some '#' ∧
      (∀ k, m < k → k < 5 → ∃ c, "a # b\n".data.get? k = some c ∧ ¬ c = '\n') :=
  strip_comments_replaces_match_with_captures "a # b\n".data 6 0 1 5
    [(1, 1, 2), (2, 5, 5)] (by decide)

/-- C4: constructing a comment stripper with a pattern whose compiled
capture-zone count is not exactly 2 fails with the `ValueError` message
(modelled as `Except.error`) that states the two-group contract, the
actual group count found (`toString r.groups`), and the pattern's
textual representation (`r.reprStr`); constructing with a pattern of
exactly 2 capture zones succeeds and returns the remover. -/
theorem commentRemover_init_validation (r : Reg) :
    (¬ r.groups = 2 →
      CommentRemover.init r = Except.error
        ("A comment remover regex pattern must have exactly two capture groups. " ++
         "Group 1 is text before comment to keep, group 2 is text after comment to keep. " ++
         "This helps us keep accurate line numbers for matches after preprocessing. " ++
         "Your pattern has " ++ toString r.groups ++
         " instead of 2 groups and looks like re.compile(" ++ r.reprStr ++ ")")) ∧
    (r.groups = 2 → CommentRemover.init r = Except.ok (CommentRemover.mk r)) := by
  constructor
  · intro h
    unfold CommentRemover.init
    rw [if_pos h]
    rfl
  · intro h
    unfold CommentRemover.init
    rw [if_neg (fun hc => hc h)]

/-- Witness for C4: a 0-group pattern (`a`), a 1-group pattern (`()`),
and a 3-group pattern (`((()))`) are all rejected with the message, and
the 2-group default pattern is accepted. -/
theorem commentRemover_init_validation_witness :
    CommentRemover.init (Reg.cls (CharCls.lit 'a')) = Except.error
      ("A comment remover regex pattern must have exactly two capture groups. " ++
       "Group 1 is text before comment to keep, group 2 is text after comment to keep. " ++
       "This helps us keep accurate line numbers for matches after preprocessing. " ++
       "Your pattern has " ++ toString (Reg.cls (CharCls.lit 'a')).groups ++
       " instead of 2 groups and looks like re.compile(" ++
       (Reg.cls (CharCls.lit 'a')).reprStr ++ ")") ∧
    CommentRemover.init (Reg.group 1 Reg.eps) = Except.error
      ("A comment remover regex pattern must have exactly two capture groups. " ++
       "Group 1 is text before comment to keep, group 2 is text after comment to keep. " ++
       "This helps us keep accurate line numbers for matches after preprocessing. " ++
       "Your pattern has " ++ toString (Reg.group 1 Reg.eps).groups ++
       " instead of 2 groups and looks like re.compile(" ++
       (Reg.group 1 Reg.eps).reprStr ++ ")") ∧
    CommentRemover.init (Reg.group 1 (Reg.group 2 (Reg.group 3 Reg.eps))) = Except.error
      ("A comment remover regex pattern must have exactly two capture groups. " ++
       "Group 1 is text before comment to keep, group 2 is text after comment to keep. " ++
       "This helps us keep accurate line numbers for matches after preprocessing. " ++
       "Your pattern has " ++ toString (Reg.group 1 (Reg.group 2 (Reg.group 3 Reg.eps))).groups ++
       " instead of 2 groups and looks like re.compile(" ++
       (Reg.group 1 (Reg.group 2 (Reg.group 3 Reg.eps))).reprStr ++ ")") ∧
    CommentRemover.init defaultRegex = Except.ok (CommentRemover.mk defaultRegex) :=
  ⟨(commentRemover_init_validation _).1 (by decide),
   (commentRemover_init_validation _).1 (by decide),
   (commentRemover_init_validation _).1 (by decide),
   (commentRemover_init_validation _).2 (by decide)⟩

/-- C5: composition order — for every input text, `normalize(text)` equals
`strip_comments(lowercase(text))`: the whole input is lowercased first and
comment stripping with the default pattern is applied to the lowercased
text. -/
theorem normalize_eq_strip_comments_lowercase (s : List Char) :
    normalize s = strip_comments (lowercase s) := rfl

/-- C6: idempotence of repeated stripping — for every input text,
`strip_comments (strip_comments text) = strip_comments text` for the
default pattern. -/
theorem strip_comments_idempotent (s : List Char) :
    strip_comments (strip_comments s) = strip_comments s :=
  strip_comments_eq_self _ (matchAt_of_noHash _ (strip_comments_noHash s))

/-- C7: no-op on comment-free input — for every text containing no `#`
(the comment-marker character of the default pattern), `strip_comments`
returns the text unchanged. -/
theorem strip_comments_no_marker_noop (s : List Char) (h : ¬ '#' ∈ s) :
    strip_comments s = s := by
  apply strip_comments_eq_self
  intro j
  unfold matchAt
  have h1 : ¬((j = 0 ∨ s.get? (j - 1) = some '\n') ∧ s.get? j = some '#') := by
    rintro ⟨_, hh⟩
    exact h (List.get?_mem hh)
  have h2 : ¬(0 < spaceRun s j ∧ s.get? (j + spaceRun s j) = some '#') := by
    rintro ⟨_, hh⟩
    exact h (List.get?_mem hh)
  rw [if_neg h1, if_neg h2]

/-- Witness for C7: `"no comments here\n"` contains no marker and passes
through unchanged. -/
theorem strip_comments_no_marker_noop_witness :
    strip_comments "no comments here\n".data = "no comments here\n".data :=
  strip_comments_no_marker_noop "no comments here\n".data (by decide)

/-- C8: totality of invocation — the embedded `strip_comments` and
`normalize` are total functions (`List Char → List Char`, no error
monad), mirroring that `Pattern.sub` and `str.lower` raise nothing once
construction has succeeded; in particular they are defined on the empty
string (`strip_comments "" = ""`), on text with an unterminated final
line (`"x # y"`, where the comment runs to end-of-text), and on text
with no comment markers. -/
theorem strip_comments_total_concrete :
    strip_comments "".data = "".data ∧
    normalize "".data = "".data ∧
    strip_comments "x # y".data = "x ".data ∧
    strip_comments "abc".data = "abc".data ∧
    normalize "No Markers".data = "no markers".data := by
  refine ⟨by decide, by decide, by decide, by decide, by decide⟩

/-- C9 counterexample: a `#` immediately preceded by a non-whitespace
character can still be removed — when it lies inside the body of a
comment begun earlier on the line.  In `"# x#y\n"` the `#` at position 3
follows the non-whitespace `x`, yet the whole line is a comment (marker
at position 0) and the output `"\n"` contains no `#` at all. -/
theorem hash_after_nonspace_removed_counterexample :
    "# x#y\n".data.get? 3 = some '#' ∧ "# x#y\n".data.get? 2 = some 'x' ∧
    isPySpace 'x' = false ∧ strip_comments "# x#y\n".data = "\n".data := by
  decide

/-- C9 (amended): with the default pattern, a `#` immediately preceded by
a non-whitespace character (and not at a line start) never *begins* a
comment — every match's deletion marker (the end of capture group 1) is a
`#` at position 0 or directly preceded by a whitespace character (which
includes newlines, hence line starts) — and such a `#` is removed only
when it lies inside the body of a comment begun earlier; e.g.
`strip_comments("a#b\n") = "a#b\n"`. -/
theorem hash_after_nonspace_never_starts_comment :
    strip_comments "a#b\n".data = "a#b\n".data ∧
    ∀ (s : List Char) (i e : Nat) (caps : Caps) (m : Nat),
      (mtch s defaultRegex i).head? = some (e, caps) →
      caps.find? (fun x => x.1 == 1) = some (1, i, m) →
      s.get? m = some '#' ∧
      (m = 0 ∨ ∃ c, s.get? (m - 1) = some c ∧ isPySpace c = true) := by
  constructor
  · decide
  · intro s i e caps m hhead hfind
    rw [head_mtch_default] at hhead
    cases hma : matchAt s i with
    | none => rw [hma] at hhead; cases hhead
    | some me =>
        rw [hma] at hhead
        simp only [Option.map_some', Option.some.injEq, Prod.mk.injEq] at hhead
        obtain ⟨he, hcaps⟩ := hhead
        subst hcaps
        have hf : (([(1, i, me.1), (2, me.2, me.2)] : Caps).find? (fun x => x.1 == 1)) =
            some (1, i, me.1) := rfl
        rw [hf] at hfind
        simp at hfind
        subst hfind
        obtain ⟨_, hm, _, _, _, _, _, _, hbr⟩ :=
          matchAt_spec s i me.1 me.2 (by rw [hma])
        refine ⟨hm, ?_⟩
        rcases hbr with ⟨hmi, hbol⟩ | ⟨hlt, hsr, hmeq⟩
        · rcases hbol with h0 | hprev
          · left; omega
          · rcases Nat.eq_zero_or_pos i with h0 | hipos
            · left; omega
            · right
              refine ⟨'\n', ?_, by decide⟩
              have hx : me.1 - 1 = i - 1 := by omega
              rw [hx]
              exact hprev
        · right
          obtain ⟨c, hgc, hcs⟩ := spaceRun_mid s i (spaceRun s i - 1) (by omega)
          refine ⟨c, ?_, hcs⟩
          have hx : me.1 - 1 = i + (spaceRun s i - 1) := by omega
          rw [hx]
          exact hgc

/-- Witness for C9 (amended): in `"  #x\n"` the match committed to from
position 0 has its marker at position 2, which indeed carries `#` and is
directly preceded by the whitespace at position 1. -/
theorem hash_after_nonspace_never_starts_comment_witness :
    "  #x\n".data.get? 2 = some '#' ∧
    (2 = 0 ∨ ∃ c, "  #x\n".data.get? (2 - 1) = some c ∧ isPySpace c = true) :=
  hash_after_nonspace_never_starts_comment.2 "  #x\n".data 0 4
    [(1, 0, 2), (2, 4, 4)] 2 (by decide) (by decide)

/-- C10: `strip_comments` never adds, reorders, or rewrites characters —
for every input text, the output is a subsequence of the input (only
characters are deleted), so its length is at most the input's length;
`normalize` output is likewise a subsequence of the lowercased input. -/
theorem strip_comments_sublist_of_input (s : List Char) :
    (strip_comments s).Sublist s ∧ (strip_comments s).length ≤ s.length ∧
    (normalize s).Sublist (lowercase s) := by
  have h1 : (strip_comments s).Sublist s := by
    have h := subAux_sublist s (s.length + 1) 0
    rw [List.drop_zero] at h
    exact h
  refine ⟨h1, h1.length_le, ?_⟩
  show (strip_comments (lowercase s)).Sublist (lowercase s)
  have h := subAux_sublist (lowercase s) ((lowercase s).length + 1) 0
  rw [List.drop_zero] at h
  exact h
